import Mathlib

/-!
Shallow embedding of `src/migrations.py` (repository `sqlite-migrations`).

Every definition below is translated from the source file; the doc comment
of each definition names the Python function or lines it embeds.  Machine
integers do not occur (Python integers are unbounded); filesystem and
database effects are made explicit as event traces or as an association
list of files.
-/

/-- A cataloged revision as consumed by `Migrations.upgrade`: the `version`
number under which it is keyed in `self.revisions`, and the script text that
`revision.file.read_text("utf-8")` yields (migrations.py line 121). -/
structure Rev where
  version : Nat
  script : String
deriving DecidableEq

/-- Observable effects of `Migrations.upgrade` (migrations.py lines 114-128):
executing one revision script on the connection, writing the state file via
`self.save()` (recording the version that is saved), committing the
transaction, and the rollback issued by the `with connection:` block when an
exception escapes it. -/
inductive Ev where
  | exec (version : Nat) (sql : String)
  | save (version : Nat)
  | commit
  | rollback
deriving DecidableEq

/-- Result of one `upgrade` call: the value of `self.version` after the call,
the trace of effects, and `ret = some n` when the call returns `n`
(`ret = none` when the exception of a failed script propagates). -/
structure UpgradeResult where
  version : Nat
  trace : List Ev
  ret : Option Nat
deriving DecidableEq

/-- The key ordering used by
`sorted(self.revisions.values(), key=lambda r: r.version)`
(migrations.py lines 90-92). -/
def revLE (a b : Rev) : Prop := a.version ≤ b.version

instance : DecidableRel revLE := fun a b => Nat.decLe a.version b.version

instance : IsTotal Rev revLE := ⟨fun a b => Nat.le_total a.version b.version⟩

instance : IsTrans Rev revLE := ⟨fun _ _ _ h1 h2 => Nat.le_trans h1 h2⟩

/-- `Migrations.ordered_revisions` (migrations.py lines 90-92): all cataloged
revisions sorted ascending by version.  A stable sort, like Python `sorted`. -/
def ordered_revisions (cat : List Rev) : List Rev := List.insertionSort revLE cat

/-- The loop body of `Migrations.upgrade` (migrations.py lines 119-123):
for each revision in the ordered catalog with `revision.version > self.version`
(`self.version` is fixed at `ver` for the whole loop, it is only incremented
after the loop), read the script and execute it; `ok sql` tells whether
`connection.execute(sql)` succeeds.  Returns the trace of execution attempts
and `some successes` resp. `none` when an execution raised. -/
def applyLoop (ver : Nat) (ok : String → Bool) : List Rev → List Ev × Option Nat
  | [] => ([], some 0)
  | r :: rs =>
    if ver < r.version then
      if ok r.script then
        let p := applyLoop ver ok rs
        (Ev.exec r.version r.script :: p.1, p.2.map (fun n => n + 1))
      else
        ([Ev.exec r.version r.script], none)
    else applyLoop ver ok rs

/-- The tail of `Migrations.upgrade` (migrations.py lines 125-128): on
success `self.version += successes`, then `self.save()`, then
`connection.commit()`, then return (the `with connection:` exit issues one
more, redundant, commit which we do not record separately); on a raised
execution error the `with connection:` exit rolls the transaction back,
`self.version` is never touched and `self.save()` is never reached. -/
def finishUpgrade (ver : Nat) : List Ev × Option Nat → UpgradeResult
  | (tr, some n) =>
    { version := ver + n, trace := tr ++ [Ev.save (ver + n), Ev.commit], ret := some n }
  | (tr, none) =>
    { version := ver, trace := tr ++ [Ev.rollback], ret := none }

/-- `Migrations.upgrade` (migrations.py lines 114-128) over a starting
version `ver`, catalog `cat` and execution oracle `ok`. -/
def upgrade (ver : Nat) (cat : List Rev) (ok : String → Bool) : UpgradeResult :=
  finishUpgrade ver (applyLoop ver ok (ordered_revisions cat))

/-- The sequence of revisions printed by the `log` CLI command
(migrations.py lines 220-234): `reversed(migrations.ordered_revisions)` when
`--reverse` is NOT passed, and the ascending `ordered_revisions` when it is. -/
def log_sequence (cat : List Rev) (reverse : Bool) : List Rev :=
  if reverse then ordered_revisions cat else (ordered_revisions cat).reverse

/-- The catalog `[V1, V3]` used to exhibit the behaviour of `upgrade` on a
version gap. -/
def gapCat : List Rev := [⟨1, "alpha"⟩, ⟨3, "gamma"⟩]

/-- Contiguous version numbers `[1, 2, ..., n]`, the shape `create_revision`
produces in practice (comment at migrations.py lines 20-23). -/
def firstN (n : Nat) : List Nat := (List.range n).map (fun i => i + 1)

/-! ### Revision filename parsing

`REVISION_FILE = re.compile(r"(?P<kind>V)(?P<version>[0-9]+)__(?P<description>.+).sql")`
(migrations.py line 15), used with `.match` (anchored at the start only) in
`Migrations.get_revisions` (line 144).  Note: the `kind` group matches only
the literal letter `V`; `.` matches any character except a newline; the final
`.sql` has an unescaped dot and the match is not anchored at the end. -/

/-- ASCII digit test, the `[0-9]` character class. -/
def isAsciiDigit (c : Char) : Bool := '0' ≤ c && c ≤ '9'

/-- The `.` character class of the regex: any character except a newline. -/
def notNL (c : Char) : Bool := c != '\n'

def digitVal (c : Char) : Nat := c.toNat - '0'.toNat

/-- `int(match.group("version"))` (migrations.py line 43). -/
def natOfDigits (ds : List Char) : Nat := ds.foldl (fun n c => 10 * n + digitVal c) 0

/-- Greedy `[0-9]+`: split off the maximal leading ASCII-digit run. -/
def takeDigits : List Char → List Char × List Char
  | [] => ([], [])
  | c :: cs =>
    if isAsciiDigit c then
      let p := takeDigits cs
      (c :: p.1, p.2)
    else ([], c :: cs)

/-- Whether the rest of the pattern, `.sql` with an unescaped dot and no end
anchor, matches at the start of the given suffix. -/
def tailOk : List Char → Bool
  | c :: 's' :: 'q' :: 'l' :: _ => notNL c
  | _ => false

/-- Greedy `(?P<description>.+)` followed by `.sql`: the longest non-empty
newline-free split `(description, rest)` such that `rest` still matches
`.sql` (with arbitrary trailing characters allowed). -/
def splitDesc : List Char → Option (List Char × List Char)
  | [] => none
  | c :: rest =>
    if notNL c then
      match splitDesc rest with
      | some (d, t) => some (c :: d, t)
      | none => if tailOk rest then some ([c], rest) else none
    else none

/-- After the leading `V` and the greedy digit run `p.1` with remainder
`p.2`: the digit run must be non-empty, `__` must follow immediately, and the
rest must admit a greedy description split; on success the parsed
`(version, description)`. -/
def afterDigits (p : List Char × List Char) : Option (Nat × List Char) :=
  match p.2 with
  | c1 :: c2 :: rest3 =>
    if p.1 ≠ [] ∧ c1 = '_' ∧ c2 = '_' then
      (splitDesc rest3).map (fun q => (natOfDigits p.1, q.1))
    else none
  | _ => none

/-- `REVISION_FILE.match(file.name)` combined with `Revision.from_match`
(migrations.py lines 15 and 39-46): on a match, the parsed
`(version, description)`; `none` when the filename is not a revision file. -/
def match_revision_file (name : List Char) : Option (Nat × List Char) :=
  match name with
  | [] => none
  | c :: rest => if c = 'V' then afterDigits (takeDigits rest) else none

/-- Dict insert keyed by version, `result[rev.version] = rev`
(migrations.py line 147): replaces an existing binding, else appends. -/
def upsert : List (Nat × List Char) → Nat → List Char → List (Nat × List Char)
  | [], v, d => [(v, d)]
  | (w, e) :: m, v, d => if w = v then (v, d) :: m else (w, e) :: upsert m v d

/-- One step of the catalog scan: a name that does not match the pattern is
skipped, a match is inserted into the version-keyed mapping. -/
def scanStep (m : List (Nat × List Char)) (name : List Char) : List (Nat × List Char) :=
  match match_revision_file name with
  | some vd => upsert m vd.1 vd.2
  | none => m

/-- `Migrations.get_revisions` (migrations.py lines 141-149) over the list of
file names the directory scan yields. -/
def get_revisions (names : List (List Char)) : List (Nat × List Char) :=
  names.foldl scanStep []

/-! ### Revision creation -/

/-- Engine fields relevant to `create_revision` and
`is_next_revision_taken`: `self.version` and the key set of
`self.revisions` (the catalog is built once at construction and is not
refreshed by `create_revision`). -/
structure Engine where
  version : Nat
  revisionVersions : List Nat
deriving DecidableEq

/-- `Migrations.is_next_revision_taken` (migrations.py lines 87-88):
`self.version + 1 in self.revisions`. -/
def is_next_revision_taken (e : Engine) : Bool :=
  e.revisionVersions.contains (e.version + 1)

/-- The Python whitespace class `\s` restricted to ASCII, as used by
`re.sub(r"\s", "_", reason)` (migrations.py line 95).  (Python also counts
some Unicode spaces; filenames in the claims are ASCII.) -/
def pyIsSpace (c : Char) : Bool :=
  c == ' ' || c == '\t' || c == '\n' || c == '\r' || c == '\x0b' || c == '\x0c'

/-- `re.sub(r"\s", "_", reason)` (migrations.py line 95): every whitespace
character of `reason` replaced by an underscore. -/
def sub_whitespace (reason : String) : String :=
  ⟨reason.data.map (fun c => if pyIsSpace c then '_' else c)⟩

/-- Observable effects of `Migrations.create_revision`
(migrations.py lines 94-112): writing the stub script file, then
`self.save()` recording the (unchanged) version it persists. -/
inductive CEv where
  | writeFile (filename : String) (content : String)
  | saveState (version : Nat)
deriving DecidableEq

/-- Result of one `create_revision` call: the filename written, the stub
written into it, the effect trace, and the returned `Revision`
as `(version, description)`. -/
structure CreateResult where
  filename : String
  stub : String
  events : List CEv
  rev : Nat × String
deriving DecidableEq

/-- `Migrations.create_revision` (migrations.py lines 94-112).  `now` stands
for `datetime.datetime.utcnow()` rendered as text.  Note that the source
performs NO check of `is_next_revision_taken` here (the check lives in the
CLI `migrate` command, lines 184-191), never raises a
`PendingRevisionExists`-style error, and does not change `self.version`. -/
def create_revision (e : Engine) (reason : String) (now : String)
    (kind : String := "V") : CreateResult :=
  let cleaned := sub_whitespace reason
  let filename := kind ++ toString (e.version + 1) ++ "__" ++ cleaned ++ ".sql"
  let stub := "-- Revises: V" ++ toString e.version
      ++ "\n-- Creation Date: " ++ now ++ " UTC\n-- Reason: " ++ reason ++ "\n\n"
  { filename := filename
    stub := stub
    events := [CEv.writeFile filename stub, CEv.saveState e.version]
    rev := (e.version + 1, reason) }

/-- The CLI `migrate` command (migrations.py lines 178-193): it checks
`is_next_revision_taken` and exits WITHOUT calling `create_revision` when the
next version is already staged; otherwise it calls `create_revision`. -/
def migrate_command (e : Engine) (reason now : String) : Option CreateResult :=
  if is_next_revision_taken e then none
  else some (create_revision e reason now "V")

/-! ### Atomic state save -/

/-- A directory as an association list from file name to content. -/
abbrev FS := List (String × String)

def lookupFile : FS → String → Option String
  | [], _ => none
  | (m, d) :: fs, n => if m = n then some d else lookupFile fs n

/-- Create or overwrite a file. -/
def setFile : FS → String → String → FS
  | [], n, c => [(n, c)]
  | (m, d) :: fs, n, c => if m = n then (n, c) :: fs else (m, d) :: setFile fs n c

/-- Delete a file (no error when absent). -/
def delFile : FS → String → FS
  | [], _ => []
  | (m, d) :: fs, n => if m = n then delFile fs n else (m, d) :: delFile fs n

/-- `Migrations.save` (migrations.py lines 79-85).  `target` is
`self.filename`, `temp` the uuid-suffixed temporary name, `content` the
serialized state.  When `failed` is true the `json.dump`/write step raises
after the temporary file was opened, leaving it holding `halfWritten`; the
function has no cleanup handler, so the temporary file stays on disk and
`os.replace` is never reached.  On success `os.replace(temp, self.filename)`
atomically renames the temporary file over the target. -/
def save (fs : FS) (target temp content halfWritten : String)
    (failed : Bool) : FS × Bool :=
  if failed then (setFile fs temp halfWritten, false)
  else (setFile (delFile (setFile fs temp content) temp) target content, true)

/-! ### Helper lemmas about the upgrade loop -/

theorem applyLoop_trace_execs (ver : Nat) (ok : String → Bool) :
    ∀ l : List Rev, ∀ e ∈ (applyLoop ver ok l).1, ∃ v s, e = Ev.exec v s := by
  intro l
  induction l with
  | nil => intro e he; simp [applyLoop] at he
  | cons r rs ih =>
    intro e he
    by_cases hv : ver < r.version
    · by_cases hok : ok r.script
      · simp [applyLoop, hv, hok] at he
        rcases he with he | he
        · exact ⟨r.version, r.script, he⟩
        · exact ih e he
      · simp [applyLoop, hv, hok] at he
        exact ⟨r.version, r.script, he⟩
    · simp [applyLoop, hv] at he
      exact ih e he

theorem applyLoop_none_of_fail (ver : Nat) (ok : String → Bool) :
    ∀ l : List Rev, (∃ r ∈ l, ver < r.version ∧ ok r.script = false) →
      (applyLoop ver ok l).2 = none := by
  intro l
  induction l with
  | nil => rintro ⟨r, hr, _⟩; simp at hr
  | cons a rs ih =>
    rintro ⟨r, hr, hv, hok⟩
    rcases List.mem_cons.mp hr with rfl | hmem
    · simp [applyLoop, hv, hok]
    · by_cases hva : ver < a.version
      · by_cases hoka : ok a.script
        · have hrec := ih ⟨r, hmem, hv, hok⟩
          simp [applyLoop, hva, hoka, hrec]
        · simp [applyLoop, hva, hoka]
      · simp [applyLoop, hva]
        exact ih ⟨r, hmem, hv, hok⟩

theorem applyLoop_count (ver : Nat) (ok : String → Bool) :
    ∀ (l : List Rev) (n : Nat), (applyLoop ver ok l).2 = some n →
      n = l.countP (fun r => decide (ver < r.version)) := by
  intro l
  induction l with
  | nil =>
    intro n h
    simp [applyLoop] at h
    simp [← h]
  | cons a rs ih =>
    intro n h
    by_cases hv : ver < a.version
    · by_cases hok : ok a.script
      · simp [applyLoop, hv, hok] at h
        rcases hmap : (applyLoop ver ok rs).2 with _ | m
        · rw [hmap] at h; simp at h
        · rw [hmap] at h
          simp at h
          have hm := ih m hmap
          simp [List.countP_cons, hv, ← h, hm]
      · simp [applyLoop, hv, hok] at h
    · simp [applyLoop, hv] at h
      have hm := ih n h
      simp [List.countP_cons, hv, hm]

theorem applyLoop_no_pending (ver : Nat) (ok : String → Bool) :
    ∀ l : List Rev, (∀ r ∈ l, r.version ≤ ver) → applyLoop ver ok l = ([], some 0) := by
  intro l
  induction l with
  | nil => intro _; rfl
  | cons a rs ih =>
    intro h
    have ha : ¬ ver < a.version := Nat.not_lt.mpr (h a (List.mem_cons_self a rs))
    simp only [applyLoop, if_neg ha]
    exact ih (fun r hr => h r (List.mem_cons_of_mem a hr))

theorem applyLoop_all_ok_ret (ver : Nat) :
    ∀ l : List Rev, (applyLoop ver (fun _ => true) l).2
      = some (l.countP (fun r => decide (ver < r.version))) := by
  intro l
  induction l with
  | nil => rfl
  | cons a rs ih =>
    by_cases hv : ver < a.version
    · simp [applyLoop, hv, ih, List.countP_cons]
    · simp [applyLoop, hv, ih, List.countP_cons]

/-! ### Claim theorems -/

/-- Claim C1: for every catalog and starting state, if any pending revision's
script execution fails during `upgrade`, the call raises (`ret = none`),
`state.version` equals its value before the call, and `save` is never
invoked (no `Ev.save` in the trace): the transaction is rolled back and no
partial progress is recorded. -/
theorem upgrade_failure_atomic (ver : Nat) (cat : List Rev) (ok : String → Bool)
    (h : ∃ r ∈ cat, ver < r.version ∧ ok r.script = false) :
    (upgrade ver cat ok).ret = none ∧ (upgrade ver cat ok).version = ver ∧
      (∀ v, Ev.save v ∉ (upgrade ver cat ok).trace) ∧
      Ev.rollback ∈ (upgrade ver cat ok).trace := by
  have hperm : List.Perm (ordered_revisions cat) cat := List.perm_insertionSort revLE cat
  have h2 : ∃ r ∈ ordered_revisions cat, ver < r.version ∧ ok r.script = false := by
    rcases h with ⟨r, hr, hp⟩
    exact ⟨r, hperm.mem_iff.mpr hr, hp⟩
  have hnone := applyLoop_none_of_fail ver ok _ h2
  have hexecs := applyLoop_trace_execs ver ok (ordered_revisions cat)
  rcases hres : applyLoop ver ok (ordered_revisions cat) with ⟨tr, res⟩
  rw [hres] at hnone hexecs
  simp only at hnone
  subst hnone
  simp only [upgrade, hres, finishUpgrade]
  refine ⟨by simp, by simp, ?_, by simp⟩
  intro v hmem
  rcases List.mem_append.mp hmem with hmem | hmem
  · rcases hexecs _ hmem with ⟨w, s, hes⟩
    exact Ev.noConfusion hes
  · simp at hmem

/-- Witness for C1 at a concrete input: a one-revision catalog whose script
fails leaves the version at 0, saves nothing and rolls back. -/
theorem upgrade_failure_atomic_witness :
    (∃ r ∈ [Rev.mk 1 "bad"], 0 < r.version ∧ (fun _ : String => false) r.script = false) ∧
      ((upgrade 0 [Rev.mk 1 "bad"] (fun _ : String => false)).ret = none ∧
        (upgrade 0 [Rev.mk 1 "bad"] (fun _ : String => false)).version = 0 ∧
        (∀ v, Ev.save v ∉ (upgrade 0 [Rev.mk 1 "bad"] (fun _ : String => false)).trace) ∧
        Ev.rollback ∈ (upgrade 0 [Rev.mk 1 "bad"] (fun _ : String => false)).trace) :=
  ⟨by decide, upgrade_failure_atomic 0 [Rev.mk 1 "bad"] (fun _ : String => false) (by decide)⟩

/-- Claim C2: on a fully successful upgrade returning `n`, `state.version` is
incremented by `n`, and the trace is some script executions followed by the
state save (recording the new version) and only then the commit: the state
write strictly precedes the commit. -/
theorem upgrade_save_precedes_commit (ver : Nat) (cat : List Rev) (ok : String → Bool)
    (n : Nat) (h : (upgrade ver cat ok).ret = some n) :
    (upgrade ver cat ok).version = ver + n ∧
      ∃ pre, (upgrade ver cat ok).trace = pre ++ [Ev.save (ver + n), Ev.commit] ∧
        ∀ e ∈ pre, ∃ v s, e = Ev.exec v s := by
  have hexecs := applyLoop_trace_execs ver ok (ordered_revisions cat)
  rcases hres : applyLoop ver ok (ordered_revisions cat) with ⟨tr, res⟩
  rw [hres] at hexecs
  cases res with
  | none => simp only [upgrade, hres, finishUpgrade] at h; exact Option.noConfusion h
  | some m =>
    simp only [upgrade, hres, finishUpgrade] at h ⊢
    obtain rfl : m = n := Option.some.inj h
    exact ⟨rfl, tr, rfl, hexecs⟩

/-- Witness for C2 at a concrete input: one pending revision, full success. -/
theorem upgrade_save_precedes_commit_witness :
    (upgrade 0 [Rev.mk 1 "a"] (fun _ : String => true)).ret = some 1 ∧
      ((upgrade 0 [Rev.mk 1 "a"] (fun _ : String => true)).version = 0 + 1 ∧
        ∃ pre, (upgrade 0 [Rev.mk 1 "a"] (fun _ : String => true)).trace
            = pre ++ [Ev.save (0 + 1), Ev.commit] ∧
          ∀ e ∈ pre, ∃ v s, e = Ev.exec v s) :=
  ⟨by decide, upgrade_save_precedes_commit 0 [Rev.mk 1 "a"] (fun _ : String => true) 1 (by decide)⟩

/-- Claim C3: for any catalog whose versions are exactly {1,2,3} and starting
version 0, `upgrade` executes exactly the three revisions' scripts in
ascending order 1, 2, 3, then saves version 3 and commits, returns 3, and
leaves `state.version = 3`. -/
theorem upgrade_applies_one_two_three (cat : List Rev) (ok : String → Bool)
    (hperm : (cat.map Rev.version).Perm [1, 2, 3])
    (hok : ∀ r ∈ cat, ok r.script = true) :
    ∃ s1 s2 s3, Rev.mk 1 s1 ∈ cat ∧ Rev.mk 2 s2 ∈ cat ∧ Rev.mk 3 s3 ∈ cat ∧
      upgrade 0 cat ok =
        { version := 3,
          trace := [Ev.exec 1 s1, Ev.exec 2 s2, Ev.exec 3 s3, Ev.save 3, Ev.commit],
          ret := some 3 } := by
  have hop : List.Perm (ordered_revisions cat) cat := List.perm_insertionSort revLE cat
  have hsorted : List.Sorted revLE (ordered_revisions cat) :=
    List.sorted_insertionSort revLE cat
  have hmapperm : ((ordered_revisions cat).map Rev.version).Perm [1, 2, 3] :=
    (hop.map Rev.version).trans hperm
  have hmapsorted : List.Sorted (fun a b => a ≤ b) ((ordered_revisions cat).map Rev.version) := by
    rw [List.Sorted, List.pairwise_map]
    exact hsorted
  have hmap : (ordered_revisions cat).map Rev.version = [1, 2, 3] :=
    List.eq_of_perm_of_sorted hmapperm hmapsorted (by decide)
  obtain ⟨r1, r2, r3, hord⟩ : ∃ r1 r2 r3, ordered_revisions cat = [r1, r2, r3] := by
    rcases ho : ordered_revisions cat with _ | ⟨r1, _ | ⟨r2, _ | ⟨r3, _ | ⟨r4, t4⟩⟩⟩⟩ <;>
      rw [ho] at hmap <;> simp at hmap
    exact ⟨r1, r2, r3, rfl⟩
  rw [hord] at hmap
  simp at hmap
  obtain ⟨h1, h2, h3⟩ := hmap
  have hm1 : r1 ∈ cat := hop.mem_iff.mp (by rw [hord]; simp)
  have hm2 : r2 ∈ cat := hop.mem_iff.mp (by rw [hord]; simp)
  have hm3 : r3 ∈ cat := hop.mem_iff.mp (by rw [hord]; simp)
  have hok1 := hok r1 hm1
  have hok2 := hok r2 hm2
  have hok3 := hok r3 hm3
  refine ⟨r1.script, r2.script, r3.script, ?_, ?_, ?_, ?_⟩
  · rw [← h1]; exact hm1
  · rw [← h2]; exact hm2
  · rw [← h3]; exact hm3
  · have ha : applyLoop 0 ok [r1, r2, r3] =
        ([Ev.exec 1 r1.script, Ev.exec 2 r2.script, Ev.exec 3 r3.script], some 3) := by
      simp [applyLoop, h1, h2, h3, hok1, hok2, hok3]
    simp only [upgrade, hord, ha, finishUpgrade]
    simp

/-- Witness for C3 at a concrete input: the three revisions listed out of
order in the catalog are applied in ascending version order. -/
theorem upgrade_applies_one_two_three_witness :
    (([Rev.mk 2 "b", Rev.mk 1 "a", Rev.mk 3 "c"].map Rev.version).Perm [1, 2, 3] ∧
      (∀ r ∈ [Rev.mk 2 "b", Rev.mk 1 "a", Rev.mk 3 "c"], (fun _ : String => true) r.script = true)) ∧
      (∃ s1 s2 s3,
        Rev.mk 1 s1 ∈ [Rev.mk 2 "b", Rev.mk 1 "a", Rev.mk 3 "c"] ∧
        Rev.mk 2 s2 ∈ [Rev.mk 2 "b", Rev.mk 1 "a", Rev.mk 3 "c"] ∧
        Rev.mk 3 s3 ∈ [Rev.mk 2 "b", Rev.mk 1 "a", Rev.mk 3 "c"] ∧
        upgrade 0 [Rev.mk 2 "b", Rev.mk 1 "a", Rev.mk 3 "c"] (fun _ : String => true) =
          { version := 3,
            trace := [Ev.exec 1 s1, Ev.exec 2 s2, Ev.exec 3 s3, Ev.save 3, Ev.commit],
            ret := some 3 }) :=
  ⟨⟨by decide, by decide⟩,
    upgrade_applies_one_two_three [Rev.mk 2 "b", Rev.mk 1 "a", Rev.mk 3 "c"]
      (fun _ : String => true) (by decide) (by decide)⟩

/-- Claim C4: a successful `upgrade` advances `state.version` by the COUNT of
pending revisions, not to the maximum applied version.  In general (with every
script succeeding) the new version is the old one plus the number of pending
revisions; on the gap catalog {1,3} from version 0 this yields version 2,
strictly below the highest applied version 3, so revision 3 counts as pending
again and a second `upgrade` executes its script a second time. -/
theorem upgrade_advances_by_count_gap :
    (∀ ver cat, (upgrade ver cat (fun _ : String => true)).version
        = ver + cat.countP (fun r => decide (ver < r.version))) ∧
      upgrade 0 gapCat (fun _ : String => true) =
        { version := 2,
          trace := [Ev.exec 1 "alpha", Ev.exec 3 "gamma", Ev.save 2, Ev.commit],
          ret := some 2 } ∧
      (upgrade 0 gapCat (fun _ : String => true)).version < 3 ∧
      upgrade ((upgrade 0 gapCat (fun _ : String => true)).version) gapCat
          (fun _ : String => true) =
        { version := 3, trace := [Ev.exec 3 "gamma", Ev.save 3, Ev.commit], ret := some 1 } := by
  refine ⟨?_, by decide, by decide, by decide⟩
  intro ver cat
  have hperm : List.Perm (ordered_revisions cat) cat := List.perm_insertionSort revLE cat
  have h := applyLoop_all_ok_ret ver (ordered_revisions cat)
  rcases hres : applyLoop ver (fun _ : String => true) (ordered_revisions cat) with ⟨tr, res⟩
  rw [hres] at h
  simp only at h
  subst h
  simp only [upgrade, hres, finishUpgrade]
  rw [hperm.countP_eq]

theorem mem_firstN (v n : Nat) : v ∈ firstN n ↔ 1 ≤ v ∧ v ≤ n := by
  simp only [firstN, List.mem_map, List.mem_range]
  constructor
  · rintro ⟨a, ha, rfl⟩; omega
  · rintro ⟨h1, h2⟩; exact ⟨v - 1, by omega, by omega⟩

theorem countP_firstN (ver : Nat) :
    ∀ n, (firstN n).countP (fun v => decide (ver < v)) = n - ver := by
  intro n
  induction n with
  | zero => simp [firstN]
  | succ n ih =>
    have hsplit : firstN (n + 1) = firstN n ++ [n + 1] := by
      simp [firstN, List.range_succ]
    rw [hsplit, List.countP_append]
    by_cases h : ver < n + 1
    · simp [List.countP_cons, h, ih]; omega
    · simp [List.countP_cons, h, ih]; omega

/-- Counterexample to claim C6 as stated: on the gap catalog {1,3} the first
`upgrade` from version 0 succeeds (applying both revisions), yet the second
`upgrade` call does not return 0 and does change `state.version` — it
re-executes revision 3.  So `upgrade` is not idempotent for every catalog. -/
theorem upgrade_gap_not_idempotent_cex :
    (upgrade 0 gapCat (fun _ : String => true)).ret = some 2 ∧
      (upgrade ((upgrade 0 gapCat (fun _ : String => true)).version) gapCat
          (fun _ : String => true)).ret ≠ some 0 ∧
      (upgrade ((upgrade 0 gapCat (fun _ : String => true)).version) gapCat
          (fun _ : String => true)).version ≠
        (upgrade 0 gapCat (fun _ : String => true)).version := by
  decide

/-- Claim C6 (amended): `upgrade` is idempotent for catalogs whose version
set is contiguous from 1 (the shape the engine itself produces): if the
catalog's versions are exactly {1,...,n} and one `upgrade` call succeeds, a
second call with the same catalog returns 0 and leaves `state.version`
unchanged.  (The unamended claim, over every catalog, fails on version
gaps — see the counterexample.) -/
theorem upgrade_idempotent_of_contiguous (cat : List Rev) (ok : String → Bool)
    (n k ver : Nat)
    (hperm : (cat.map Rev.version).Perm (firstN n))
    (h1 : (upgrade ver cat ok).ret = some k) :
    (upgrade ((upgrade ver cat ok).version) cat ok).ret = some 0 ∧
      (upgrade ((upgrade ver cat ok).version) cat ok).version
        = (upgrade ver cat ok).version := by
  have hop : List.Perm (ordered_revisions cat) cat := List.perm_insertionSort revLE cat
  rcases hres : applyLoop ver ok (ordered_revisions cat) with ⟨tr, res⟩
  cases res with
  | none =>
    simp only [upgrade, hres, finishUpgrade] at h1
    exact Option.noConfusion h1
  | some m =>
    have hcount : m = (ordered_revisions cat).countP (fun r => decide (ver < r.version)) := by
      apply applyLoop_count ver ok _ m
      rw [hres]
    have hv1 : (upgrade ver cat ok).version = ver + m := by
      simp only [upgrade, hres, finishUpgrade]
    have hcat : cat.countP (fun r => decide (ver < r.version))
        = (cat.map Rev.version).countP (fun v => decide (ver < v)) := by
      rw [List.countP_map]
      rfl
    have hm : m = n - ver := by
      rw [hcount, hop.countP_eq, hcat, hperm.countP_eq, countP_firstN]
    have hbound : ∀ r ∈ ordered_revisions cat, r.version ≤ ver + m := by
      intro r hr
      have hmem : r.version ∈ cat.map Rev.version :=
        List.mem_map_of_mem Rev.version (hop.mem_iff.mp hr)
      have hmem2 := (mem_firstN r.version n).mp (hperm.mem_iff.mp hmem)
      omega
    have h2 := applyLoop_no_pending (ver + m) ok (ordered_revisions cat) hbound
    rw [hv1]
    simp only [upgrade, h2, finishUpgrade]
    exact ⟨trivial, by simp⟩

/-- Witness for the amended C6 at a concrete input: contiguous catalog {1,2}
from version 0. -/
theorem upgrade_idempotent_of_contiguous_witness :
    (([Rev.mk 1 "a", Rev.mk 2 "b"].map Rev.version).Perm (firstN 2) ∧
      (upgrade 0 [Rev.mk 1 "a", Rev.mk 2 "b"] (fun _ : String => true)).ret = some 2) ∧
      ((upgrade ((upgrade 0 [Rev.mk 1 "a", Rev.mk 2 "b"] (fun _ : String => true)).version)
          [Rev.mk 1 "a", Rev.mk 2 "b"] (fun _ : String => true)).ret = some 0 ∧
        (upgrade ((upgrade 0 [Rev.mk 1 "a", Rev.mk 2 "b"] (fun _ : String => true)).version)
            [Rev.mk 1 "a", Rev.mk 2 "b"] (fun _ : String => true)).version
          = (upgrade 0 [Rev.mk 1 "a", Rev.mk 2 "b"] (fun _ : String => true)).version) :=
  ⟨⟨by decide, by decide⟩,
    upgrade_idempotent_of_contiguous [Rev.mk 1 "a", Rev.mk 2 "b"] (fun _ : String => true)
      2 2 0 (by decide) (by decide)⟩

/-- Counterexample to claim C5 as stated: with the next version already
staged in the catalog (`is_next_revision_taken` is true), `create_revision`
does NOT fail — it completes, writes its file and returns a revision for
version `current + 1`; and a second call without an intervening upgrade
completes again with the same version and filename. -/
theorem create_revision_no_guard_cex :
    is_next_revision_taken (Engine.mk 0 [1]) = true ∧
      (create_revision (Engine.mk 0 [1]) "x" "t1").rev = (1, "x") ∧
      (create_revision (Engine.mk 0 [1]) "x" "t2").rev = (1, "x") ∧
      (create_revision (Engine.mk 0 [1]) "x" "t2").filename
        = (create_revision (Engine.mk 0 [1]) "x" "t1").filename := by
  decide

/-- Claim C5 (amended): the engine-level `create_revision` performs no
pending-revision check and never raises a `PendingRevisionExists` error: even
when `is_next_revision_taken` is true it completes, allocating
`version + 1` and performing its write and save effects.  The guard exists
only in the CLI `migrate` command, which checks `is_next_revision_taken`
first and exits without calling `create_revision`. -/
theorem create_revision_unguarded (e : Engine) (reason now kind : String)
    (h : is_next_revision_taken e = true) :
    (create_revision e reason now kind).rev.1 = e.version + 1 ∧
      (create_revision e reason now kind).events
        = [CEv.writeFile (create_revision e reason now kind).filename
            (create_revision e reason now kind).stub,
          CEv.saveState e.version] ∧
      migrate_command e reason now = none := by
  refine ⟨rfl, rfl, ?_⟩
  simp [migrate_command, h]

/-- Witness for the amended C5 at a concrete input. -/
theorem create_revision_unguarded_witness :
    is_next_revision_taken (Engine.mk 0 [1]) = true ∧
      ((create_revision (Engine.mk 0 [1]) "x" "t1" "V").rev.1 = 0 + 1 ∧
        (create_revision (Engine.mk 0 [1]) "x" "t1" "V").events
          = [CEv.writeFile (create_revision (Engine.mk 0 [1]) "x" "t1" "V").filename
              (create_revision (Engine.mk 0 [1]) "x" "t1" "V").stub,
            CEv.saveState 0] ∧
        migrate_command (Engine.mk 0 [1]) "x" "t1" = none) :=
  ⟨by decide, create_revision_unguarded (Engine.mk 0 [1]) "x" "t1" "V" (by decide)⟩

/-- Counterexample to claim C7 as stated: when `reverse` is NOT requested the
`log` command prints versions in DESCENDING order — on the catalog {1,2} it
prints [2, 1], not the ascending [1, 2] the claim asserts. -/
theorem log_default_descending_cex :
    (log_sequence [Rev.mk 1 "a", Rev.mk 2 "b"] false).map Rev.version = [2, 1] ∧
      (log_sequence [Rev.mk 1 "a", Rev.mk 2 "b"] false).map Rev.version ≠ [1, 2] := by
  decide

/-- Claim C7 (amended): the `log` command shows all cataloged revisions
sorted DESCENDING by version when `--reverse` is not requested and ASCENDING
when it is (the flag means "oldest first"), and the `reverse = true` sequence
is the exact reverse of the `reverse = false` sequence for any catalog. -/
theorem log_sequence_order (cat : List Rev) :
    log_sequence cat true = (log_sequence cat false).reverse ∧
      List.Sorted revLE (log_sequence cat true) ∧
      List.Sorted (fun a b => revLE b a) (log_sequence cat false) := by
  refine ⟨by simp [log_sequence], ?_, ?_⟩
  · show List.Sorted revLE (if (true : Bool) then ordered_revisions cat
      else (ordered_revisions cat).reverse)
    simp only [if_true]
    exact List.sorted_insertionSort revLE cat
  · show List.Sorted (fun a b => revLE b a) (if (false : Bool) then ordered_revisions cat
      else (ordered_revisions cat).reverse)
    simp only [Bool.false_eq_true, if_false]
    show List.Pairwise (fun a b => revLE b a) (ordered_revisions cat).reverse
    rw [List.pairwise_reverse]
    exact List.sorted_insertionSort revLE cat

theorem takeDigits_append :
    ∀ (ds : List Char) (c : Char) (rest : List Char),
      (∀ x ∈ ds, isAsciiDigit x = true) → isAsciiDigit c = false →
      takeDigits (ds ++ c :: rest) = (ds, c :: rest) := by
  intro ds
  induction ds with
  | nil => intro c rest _ hc; simp [takeDigits, hc]
  | cons a t ih =>
    intro c rest hds hc
    have ha : isAsciiDigit a = true := hds a (by simp)
    have ht := ih c rest (fun x hx => hds x (List.mem_cons_of_mem a hx)) hc
    simp [takeDigits, ha, ht]

theorem splitDesc_canonical :
    ∀ d : List Char, d ≠ [] → (∀ c ∈ d, c ≠ '\n') →
      splitDesc (d ++ ['.', 's', 'q', 'l']) = some (d, ['.', 's', 'q', 'l']) := by
  intro d
  induction d with
  | nil => intro h _; exact absurd rfl h
  | cons a t ih =>
    intro _ hnl
    have ha : notNL a = true := by
      have := hnl a (by simp)
      simp [notNL, this]
    cases t with
    | nil =>
      show splitDesc (a :: ['.', 's', 'q', 'l']) = some ([a], ['.', 's', 'q', 'l'])
      have hstep : splitDesc (a :: ['.', 's', 'q', 'l'])
          = if notNL a = true then some ([a], ['.', 's', 'q', 'l']) else none := rfl
      rw [hstep, if_pos ha]
    | cons b t2 =>
      have hne : b :: t2 ≠ [] := by simp
      have hnl2 : ∀ c ∈ b :: t2, c ≠ '\n' := fun c hc => hnl c (List.mem_cons_of_mem a hc)
      have hr := ih hne hnl2
      show splitDesc (a :: (b :: t2 ++ ['.', 's', 'q', 'l']))
          = some (a :: b :: t2, ['.', 's', 'q', 'l'])
      have hstep : splitDesc (a :: (b :: t2 ++ ['.', 's', 'q', 'l'])) =
          if notNL a = true then
            match splitDesc (b :: t2 ++ ['.', 's', 'q', 'l']) with
            | some (d, t) => some (a :: d, t)
            | none =>
              if tailOk (b :: t2 ++ ['.', 's', 'q', 'l']) = true
                then some ([a], b :: t2 ++ ['.', 's', 'q', 'l']) else none
          else none := rfl
      rw [hstep, if_pos ha, hr]

/-- Counterexample to claim C8 as stated.  First: the claim's pattern allows
ANY single uppercase letter as the kind, so `A1__test.sql` should parse with
kind `A`; the code's regex requires the literal letter `V` and skips that
file.  Second: the claim says every filename NOT of the stated form is
skipped, but the regex leaves the dot unescaped and the end unanchored, so
`V1__tXsql` — not of the form — still parses (as version 1, description
`t`). -/
theorem match_revision_file_cex :
    match_revision_file ['A', '1', '_', '_', 't', 'e', 's', 't', '.', 's', 'q', 'l'] = none ∧
      match_revision_file ['V', '1', '_', '_', 't', 'X', 's', 'q', 'l'] = some (1, ['t']) := by
  decide

/-- Claim C8 (amended): the kind letter is fixed to `V` (not any uppercase
letter).  For every filename exactly of the form `V<digits>__<desc>.sql` with
a non-empty digit run and a non-empty newline-free description, the parser
matches and returns the integer value of the digits and the description
verbatim (underscores preserved).  Non-matching filenames are skipped by the
catalog scan rather than treated as an error — but the skip test is looser
than the claimed form, since the dot before `sql` is an unescaped regex dot
and the match is unanchored at the end. -/
theorem match_revision_file_canonical (ds d : List Char) (ns : List (List Char))
    (nm : List Char)
    (hds : ds ≠ []) (hdig : ∀ c ∈ ds, isAsciiDigit c = true)
    (hd : d ≠ []) (hnl : ∀ c ∈ d, c ≠ '\n')
    (hnm : match_revision_file nm = none) :
    match_revision_file ('V' :: ds ++ '_' :: '_' :: (d ++ ['.', 's', 'q', 'l'])) =
        some (natOfDigits ds, d) ∧
      get_revisions (ns ++ [nm]) = get_revisions ns := by
  constructor
  · rcases ds with _ | ⟨d0, ds2⟩
    · exact absurd rfl hds
    · have h1 := takeDigits_append (d0 :: ds2) '_' ('_' :: (d ++ ['.', 's', 'q', 'l']))
        hdig (by decide)
      rw [List.cons_append] at h1
      have h2 := splitDesc_canonical d hd hnl
      simp [match_revision_file, h1, afterDigits, h2]
  · simp [get_revisions, List.foldl_append, scanStep, hnm]

/-- Witness for the amended C8 at a concrete input: `V1__t.sql` parses to
version 1 and description `t`, and appending the non-matching name `junk`
to a scan leaves the catalog unchanged. -/
theorem match_revision_file_canonical_witness :
    ((['1'] : List Char) ≠ [] ∧ (∀ c ∈ (['1'] : List Char), isAsciiDigit c = true) ∧
      (['t'] : List Char) ≠ [] ∧ (∀ c ∈ (['t'] : List Char), c ≠ '\n') ∧
      match_revision_file ['j', 'u', 'n', 'k'] = none) ∧
      (match_revision_file ('V' :: ['1'] ++ '_' :: '_' :: (['t'] ++ ['.', 's', 'q', 'l'])) =
          some (natOfDigits ['1'], ['t']) ∧
        get_revisions ([['V', '1', '_', '_', 'a', '.', 's', 'q', 'l']] ++ [['j', 'u', 'n', 'k']]) =
          get_revisions [['V', '1', '_', '_', 'a', '.', 's', 'q', 'l']]) :=
  ⟨⟨by decide, by decide, by decide, by decide, by decide⟩,
    match_revision_file_canonical ['1'] ['t'] [['V', '1', '_', '_', 'a', '.', 's', 'q', 'l']]
      ['j', 'u', 'n', 'k'] (by decide) (by decide) (by decide) (by decide) (by decide)⟩

theorem lookup_setFile_self :
    ∀ (fs : FS) (n c : String), lookupFile (setFile fs n c) n = some c := by
  intro fs
  induction fs with
  | nil => intro n c; simp [setFile, lookupFile]
  | cons p fs ih =>
    intro n c
    by_cases h : p.1 = n
    · simp [setFile, lookupFile, h]
    · simp [setFile, lookupFile, h, ih]

theorem lookup_setFile_ne :
    ∀ (fs : FS) (m n c : String), m ≠ n → lookupFile (setFile fs m c) n = lookupFile fs n := by
  intro fs
  induction fs with
  | nil => intro m n c h; simp [setFile, lookupFile, h]
  | cons p fs ih =>
    intro m n c h
    by_cases hp : p.1 = m
    · simp [setFile, lookupFile, hp, h]
    · simp [setFile, lookupFile, hp, ih _ _ _ h]

theorem lookup_delFile_self :
    ∀ (fs : FS) (n : String), lookupFile (delFile fs n) n = none := by
  intro fs
  induction fs with
  | nil => intro n; simp [delFile, lookupFile]
  | cons p fs ih =>
    intro n
    by_cases h : p.1 = n
    · simp [delFile, h, ih]
    · simp [delFile, lookupFile, h, ih]

/-- Counterexample to claim C9 as stated: when the write into the temporary
file fails, `save` has no cleanup handler, so the uniquely-named temporary
file is left on disk (it is neither renamed over the target nor deleted) —
the claim that the temporary file is cleaned up on EVERY exit path of `save`
is false.  (The prior state file is indeed untouched.) -/
theorem save_temp_left_behind_cex :
    lookupFile (save [("state.json", "old")] "state.json" "state.json.tmp1" "new" "ne" true).1
        "state.json.tmp1" = some "ne" ∧
      lookupFile (save [("state.json", "old")] "state.json" "state.json.tmp1" "new" "ne" true).1
        "state.json.tmp1" ≠ none := by
  decide

/-- Claim C9 (amended): on the SUCCESS path `save` renames the temporary
file over the target (afterwards the temporary name is absent and the target
holds the new content); on a failed write the temporary file is left behind
holding the partial content, but the prior state file at the target path is
intact — a failed save never corrupts the target. -/
theorem save_atomic_behaviour (fs : FS) (target temp content halfWritten : String)
    (hne : temp ≠ target) :
    (lookupFile (save fs target temp content halfWritten false).1 temp = none ∧
      lookupFile (save fs target temp content halfWritten false).1 target = some content ∧
      (save fs target temp content halfWritten false).2 = true) ∧
      (lookupFile (save fs target temp content halfWritten true).1 target
          = lookupFile fs target ∧
        lookupFile (save fs target temp content halfWritten true).1 temp = some halfWritten ∧
        (save fs target temp content halfWritten true).2 = false) := by
  refine ⟨⟨?_, ?_, rfl⟩, ?_, ?_, rfl⟩
  · show lookupFile (setFile (delFile (setFile fs temp content) temp) target content) temp = none
    rw [lookup_setFile_ne _ target temp content (fun h => hne h.symm)]
    exact lookup_delFile_self _ temp
  · exact lookup_setFile_self _ target content
  · show lookupFile (setFile fs temp halfWritten) target = lookupFile fs target
    exact lookup_setFile_ne _ temp target halfWritten hne
  · exact lookup_setFile_self _ temp halfWritten

/-- Witness for the amended C9 at a concrete input. -/
theorem save_atomic_behaviour_witness :
    ("state.json.tmp1" : String) ≠ "state.json" ∧
      ((lookupFile (save [("state.json", "old")] "state.json" "state.json.tmp1" "new" "ne"
            false).1 "state.json.tmp1" = none ∧
        lookupFile (save [("state.json", "old")] "state.json" "state.json.tmp1" "new" "ne"
            false).1 "state.json" = some "new" ∧
        (save [("state.json", "old")] "state.json" "state.json.tmp1" "new" "ne" false).2
          = true) ∧
      (lookupFile (save [("state.json", "old")] "state.json" "state.json.tmp1" "new" "ne"
            true).1 "state.json"
          = lookupFile [("state.json", "old")] "state.json" ∧
        lookupFile (save [("state.json", "old")] "state.json" "state.json.tmp1" "new" "ne"
            true).1 "state.json.tmp1" = some "ne" ∧
        (save [("state.json", "old")] "state.json" "state.json.tmp1" "new" "ne" true).2
          = false)) :=
  ⟨by decide,
    save_atomic_behaviour [("state.json", "old")] "state.json" "state.json.tmp1" "new" "ne"
      (by decide)⟩

/-- Claim C10: for every reason, timestamp and kind, `create_revision`
allocates version `current + 1`, writes the script file named
`<kind><current+1>__<sanitized reason>.sql` where sanitizing replaces every
whitespace character of the reason by an underscore, writes a header stub
that names the prior version `current`, then persists the (unchanged) state,
and returns a revision descriptor with version `current + 1`. -/
theorem create_revision_spec (e : Engine) (reason now kind : String) :
    (create_revision e reason now kind).filename
        = kind ++ toString (e.version + 1) ++ "__" ++ sub_whitespace reason ++ ".sql" ∧
      (sub_whitespace reason).data
        = reason.data.map (fun c => if pyIsSpace c then '_' else c) ∧
      (∃ rest, (create_revision e reason now kind).stub
        = "-- Revises: V" ++ toString e.version ++ rest) ∧
      (create_revision e reason now kind).events
        = [CEv.writeFile (create_revision e reason now kind).filename
            (create_revision e reason now kind).stub,
          CEv.saveState e.version] ∧
      (create_revision e reason now kind).rev = (e.version + 1, reason) := by
  refine ⟨rfl, rfl,
    ⟨"\n-- Creation Date: " ++ now ++ " UTC\n-- Reason: " ++ reason ++ "\n\n", ?_⟩,
    rfl, rfl⟩
  simp only [create_revision, String.append_assoc]
